import Mathlib

/-!
Verification of the `FunctionSplitter` program (src/splitter.py) against its
natural-language specification.

The development is layered, mirroring the claims:

* a text layer (`countOccs`, `replaceAll`, `replaceFirst`, `importLine`,
  `updateOriginalScript`, `restoreScript`) embedding the purely textual
  rewriting done by `_update_original_script`; text is modelled as `List Char`
  and Python's `str.replace` (which replaces every non-overlapping occurrence,
  scanning left to right) is `replaceAll`;
* an AST layer (`PyNode`, `walk`, `dumpNode`, `collectStmt`,
  `usedImports`, `handleMethodAttributes`) embedding the `ast.NodeVisitor`
  traversal, `ast.walk`, `ast.dump` and the import-usage resolver;
* a file-composition layer (`createFunctionFileContent`,
  `createMethodFileContent`, `getImportsCode`) embedding `_create_function_file`,
  `_create_class_file`, `_create_method_file` and `_get_imports_code`;
* a control-flow layer (`Effect`, `splitEffects`, `mainRun`) embedding the
  order of filesystem effects of `split_functions` and `__main__`.
-/

namespace Splitter

/-- Number of positions at which `p` occurs as a contiguous sublist of `l`
(every starting position is counted, so overlapping occurrences each count). -/
def countOccs (p : List Char) : List Char → Nat
  | [] => if p = [] then 1 else 0
  | c :: rest => (if p.isPrefixOf (c :: rest) then 1 else 0) + countOccs p rest

/-- Fuel-indexed scanner underlying `replaceAll`; the fuel (always called with
at least the text's length) only makes the recursion structural, it never runs
out on the calls `replaceAll` makes. -/
def replaceAllF (p r : List Char) : Nat → List Char → List Char
  | _, [] => []
  | 0, l => l
  | fuel + 1, c :: rest =>
    if p.isPrefixOf (c :: rest) = true ∧ p ≠ [] then
      r ++ replaceAllF p r fuel (List.drop p.length (c :: rest))
    else
      c :: replaceAllF p r fuel rest

/-- Python `str.replace(old, new)` semantics for a nonempty pattern: scan left
to right, replace every occurrence, resume scanning after each replaced
segment (the replacement text is never rescanned).  The splitter only ever
replaces nonempty definition spans and nonempty import lines, so the guard
`p ≠ []` never fires on the modelled inputs. -/
def replaceAll (p r : List Char) (l : List Char) : List Char :=
  replaceAllF p r l.length l

/-- First-occurrence literal replacement: only the leftmost occurrence of `p`
is replaced by `r`.  This is the replacement semantics that the specification
describes for the Script Rewriter, and the per-definition back-substitution
step of the specification's round-trip property. -/
def replaceFirst (p r : List Char) : List Char → List Char
  | [] => []
  | c :: rest =>
    if p.isPrefixOf (c :: rest) = true ∧ p ≠ [] then
      r ++ List.drop p.length (c :: rest)
    else
      c :: replaceFirst p r rest

/-- Python's substring test `p in l` (contiguous substring), for `List Char`. -/
def containsSub (p : List Char) : List Char → Bool
  | [] => p.isEmpty
  | c :: rest => p.isPrefixOf (c :: rest) || containsSub p rest

/-- A collected definition as the Script Rewriter sees it: its name and the
exact source segment `ast.get_source_segment(script_code, node)` returned for
it (decorators excluded, which is what `get_source_segment` yields for a
`FunctionDef`/`ClassDef` node). -/
structure DefSpan where
  name : List Char
  span : List Char
deriving DecidableEq

/-- The one-line relative import `from .<name> import <name>\n` built by
`_update_original_script`. -/
def importLine (n : List Char) : List Char :=
  "from .".toList ++ n ++ " import ".toList ++ n ++ "\n".toList

/-- `_update_original_script`: starting from the original script text, for each
collected function and then for each collected class, replace the definition's
original segment (taken from the original text) in the accumulating text by
its import line, with Python `str.replace` (replace-all) semantics; the result
is the text written back over the original file. -/
def updateOriginalScript (funcs classes : List DefSpan) (script : List Char) : List Char :=
  let afterFuncs := funcs.foldl (fun acc d => replaceAll d.span (importLine d.name) acc) script
  classes.foldl (fun acc d => replaceAll d.span (importLine d.name) acc) afterFuncs

/-- Modelled from the spec: the back-substitution described by the testable
round-trip property ("with every occurrence of `from .<name> import <name>`
replaced back by the corresponding original definition text (in source
order)"): for each definition in order, the leftmost occurrence of its import
line is replaced back by its original span. -/
def restoreScript (defs : List DefSpan) (text : List Char) : List Char :=
  defs.foldl (fun acc d => replaceFirst (importLine d.name) d.span acc) text

/-- A source file's layout: its collected definitions in source order, each
slot carrying whether the definition is a function (`true`) or a class
(`false`), its `DefSpan`, and the block of untouched text that follows it.
Functions and classes may interleave arbitrarily in the text; the rewriter
nevertheless processes all functions first, then all classes. -/
def layoutSrc : List (Bool × DefSpan × List Char) → List Char
  | [] => []
  | (_, d, b) :: rest => d.span ++ b ++ layoutSrc rest

/-- The same suffix midway through the rewrite: after the function pass,
function slots show their import line, class slots still show their span. -/
def layoutMid : List (Bool × DefSpan × List Char) → List Char
  | [] => []
  | (true, d, b) :: rest => importLine d.name ++ b ++ layoutMid rest
  | (false, d, b) :: rest => d.span ++ b ++ layoutMid rest

/-- The suffix after both passes: every span replaced by its import line. -/
def layoutImp : List (Bool × DefSpan × List Char) → List Char
  | [] => []
  | (_, d, b) :: rest => importLine d.name ++ b ++ layoutImp rest

/-- A source file: leading block `B0`, then each definition span (function or
class, in any textual order) followed by its trailing block. -/
def srcTextL (B0 : List Char) (parts : List (Bool × DefSpan × List Char)) : List Char :=
  B0 ++ layoutSrc parts

/-- The function definitions of a layout, in source order — the order in
which the visitor collects them and the rewriter's first loop processes
them. -/
def funcDefsOf : List (Bool × DefSpan × List Char) → List DefSpan
  | [] => []
  | (true, d, _) :: rest => d :: funcDefsOf rest
  | (false, _, _) :: rest => funcDefsOf rest

/-- The class definitions of a layout, in source order — processed by the
rewriter's second loop. -/
def classDefsOf : List (Bool × DefSpan × List Char) → List DefSpan
  | [] => []
  | (false, d, _) :: rest => d :: classDefsOf rest
  | (true, _, _) :: rest => classDefsOf rest

/-- Hypotheses for the function pass: when the pass reaches a function slot,
that span is nonempty and occurs exactly once in the then-current text (`P`
is the part of the text preceding the slot in its then-current state). -/
def funcPassOK : List Char → List (Bool × DefSpan × List Char) → Bool
  | _, [] => true
  | P, (true, d, b) :: rest =>
    !d.span.isEmpty
      && (countOccs d.span (P ++ d.span ++ b ++ layoutSrc rest) == 1)
      && funcPassOK (P ++ importLine d.name ++ b) rest
  | P, (false, d, b) :: rest => funcPassOK (P ++ d.span ++ b) rest

/-- Hypotheses for the class pass, running on the text left by the function
pass: when the pass reaches a class slot, its span is nonempty and occurs
exactly once in the then-current text. -/
def classPassOK : List Char → List (Bool × DefSpan × List Char) → Bool
  | _, [] => true
  | P, (true, d, b) :: rest => classPassOK (P ++ importLine d.name ++ b) rest
  | P, (false, d, b) :: rest =>
    !d.span.isEmpty
      && (countOccs d.span (P ++ d.span ++ b ++ layoutMid rest) == 1)
      && classPassOK (P ++ importLine d.name ++ b) rest

/-- Hypotheses for the back-substitution pass (in source order): before each
step, the definition's import line occurs exactly once in the restored prefix
followed by the inserted line, so the leftmost occurrence is the inserted
one. -/
def restoreOK : List Char → List (Bool × DefSpan × List Char) → Bool
  | _, [] => true
  | P, (_, d, b) :: rest =>
    (countOccs (importLine d.name) (P ++ importLine d.name) == 1)
      && restoreOK (P ++ d.span ++ b) rest

/-- A fragment of the Python abstract syntax tree, covering the node shapes the
splitter inspects.  `importStmt` carries the statement's `names` list of
`(name, asname)` alias pairs (one constructor stands for both `ast.Import` and
`ast.ImportFrom`, whose `names` fields the resolver treats identically). -/
inductive PyNode where
  | name (id : String)
  | strConst (v : String)
  | numConst (v : Nat)
  | attrAccess (value : PyNode) (attr : String)
  | call (func : PyNode) (args : List PyNode)
  | exprStmt (e : PyNode)
  | ret (e : PyNode)
  | assign (target : PyNode) (value : PyNode)
  | passStmt
  | importStmt (names : List (String × Option String))
  | funcDef (nm : String) (params : List String) (body : List PyNode) (decorators : List PyNode)
  | classDef (nm : String) (body : List PyNode)
  | module (body : List PyNode)

mutual
/-- The set of nodes yielded by `ast.walk(n)`: the node itself and all of its
descendants.  (`ast.walk` yields them in breadth-first order; the splitter
only ever tests membership via `any`, for which the order is irrelevant, so
this model lists them in depth-first order.) -/
def walk : PyNode → List PyNode
  | .name i => [.name i]
  | .strConst v => [.strConst v]
  | .numConst v => [.numConst v]
  | .attrAccess v a => .attrAccess v a :: walk v
  | .call f args => .call f args :: (walk f ++ walkList args)
  | .exprStmt e => .exprStmt e :: walk e
  | .ret e => .ret e :: walk e
  | .assign t v => .assign t v :: (walk t ++ walk v)
  | .passStmt => [.passStmt]
  | .importStmt ns => [.importStmt ns]
  | .funcDef nm ps body decos => .funcDef nm ps body decos :: (walkList decos ++ walkList body)
  | .classDef nm body => .classDef nm body :: walkList body
  | .module body => .module body :: walkList body

/-- `walk` over a list of sibling nodes. -/
def walkList : List PyNode → List PyNode
  | [] => []
  | n :: ns => walk n ++ walkList ns
end

/-- Rendering of one import alias inside `ast.dump`. -/
def dumpAlias (al : String × Option String) : List Char :=
  match al.2 with
  | none => "alias(name=\"".toList ++ al.1.toList ++ "\")".toList
  | some a =>
    "alias(name=\"".toList ++ al.1.toList ++ "\", asname=\"".toList ++ a.toList ++ "\")".toList

/-- Comma-separated rendering of an alias list. -/
def dumpAliases : List (String × Option String) → List Char
  | [] => []
  | [al] => dumpAlias al
  | al :: als => dumpAlias al ++ ", ".toList ++ dumpAliases als

/-- Comma-separated rendering of a parameter list, each as `arg(arg="p")`. -/
def dumpParams : List String → List Char
  | [] => []
  | [p] => "arg(arg=\"".toList ++ p.toList ++ "\")".toList
  | p :: ps => "arg(arg=\"".toList ++ p.toList ++ "\")".toList ++ ", ".toList ++ dumpParams ps

mutual
/-- `ast.dump(n)`: the textual structural rendering of a node.  Identifiers
appear quoted inside the text, and crucially the *values of string constants
appear verbatim in the dump* (Python renders `Constant(value='...')`), which
is what makes the resolver's substring test sensitive to string literals.
(Python delimits with single quotes; the delimiter choice is irrelevant to
every property proved here.) -/
def dumpNode : PyNode → List Char
  | .name i => "Name(id=\"".toList ++ i.toList ++ "\", ctx=Load())".toList
  | .strConst v => "Constant(value=\"".toList ++ v.toList ++ "\")".toList
  | .numConst v => "Constant(value=".toList ++ (toString v).toList ++ ")".toList
  | .attrAccess v a =>
    "Attribute(value=".toList ++ dumpNode v ++ ", attr=\"".toList ++ a.toList
      ++ "\", ctx=Load())".toList
  | .call f args =>
    "Call(func=".toList ++ dumpNode f ++ ", args=[".toList ++ dumpList args
      ++ "], keywords=[])".toList
  | .exprStmt e => "Expr(value=".toList ++ dumpNode e ++ ")".toList
  | .ret e => "Return(value=".toList ++ dumpNode e ++ ")".toList
  | .assign t v =>
    "Assign(targets=[".toList ++ dumpNode t ++ "], value=".toList ++ dumpNode v ++ ")".toList
  | .passStmt => "Pass()".toList
  | .importStmt ns => "Import(names=[".toList ++ dumpAliases ns ++ "])".toList
  | .funcDef nm ps body decos =>
    "FunctionDef(name=\"".toList ++ nm.toList ++ "\", args=arguments(args=[".toList
      ++ dumpParams ps ++ "]), body=[".toList ++ dumpList body
      ++ "], decorator_list=[".toList ++ dumpList decos ++ "])".toList
  | .classDef nm body =>
    "ClassDef(name=\"".toList ++ nm.toList ++ "\", body=[".toList ++ dumpList body ++ "])".toList
  | .module body => "Module(body=[".toList ++ dumpList body ++ "])".toList

/-- Comma-separated rendering of a node list inside `ast.dump`. -/
def dumpList : List PyNode → List Char
  | [] => []
  | [n] => dumpNode n
  | n :: ns => dumpNode n ++ ", ".toList ++ dumpList ns
end

/-- The lists accumulated by the visitor: `self.functions`, `self.classes`,
`self.imports`. -/
structure Collected where
  functions : List PyNode
  classes : List PyNode
  imports : List PyNode

mutual
/-- The `ast.NodeVisitor` dispatch of `FunctionSplitter`: `visit_Import` /
`visit_ImportFrom` / `visit_FunctionDef` / `visit_ClassDef` each append their
node and then call `generic_visit(node)`, so the traversal continues into the
bodies of function and class definitions; every other node type falls through
to `generic_visit`, which visits the children (none of which can contain a
statement in this model except through the bodies handled here). -/
def collectStmt (acc : Collected) : PyNode → Collected
  | .funcDef nm ps body decos =>
    collectStmts { acc with functions := acc.functions ++ [.funcDef nm ps body decos] } body
  | .classDef nm body =>
    collectStmts { acc with classes := acc.classes ++ [.classDef nm body] } body
  | .importStmt ns => { acc with imports := acc.imports ++ [.importStmt ns] }
  | .module body => collectStmts acc body
  | _ => acc

/-- Visit a list of sibling statements in order. -/
def collectStmts (acc : Collected) : List PyNode → Collected
  | [] => acc
  | s :: ss => collectStmts (collectStmt acc s) ss
end

/-- `self.visit(tree)` starting from empty accumulators. -/
def collectModule (m : PyNode) : Collected :=
  collectStmt ⟨[], [], []⟩ m

/-- The `name` attribute of a definition node. -/
def defName : PyNode → String
  | .funcDef nm _ _ _ => nm
  | .classDef nm _ => nm
  | _ => ""

/-- The `names` attribute of an import node. -/
def importedNames : PyNode → List (String × Option String)
  | .importStmt ns => ns
  | _ => []

/-- The file names written by `split_functions`: one `<name>.py` per collected
function (in collection order), then one per collected class. -/
def splitOutputFiles (m : PyNode) : List String :=
  ((collectModule m).functions.map (fun f => defName f ++ ".py"))
    ++ ((collectModule m).classes.map (fun c => defName c ++ ".py"))

/-- Modelled from the spec: the number of *top-level* function and class
definitions of a module ("ordered list of DefinitionNode for every top-level
function and class definition"), used to compare the code's behaviour with
the claimed `N+M` file count. -/
def specTopLevelDefCount (m : PyNode) : Nat :=
  match m with
  | .module body =>
    (body.filter (fun s =>
      match s with
      | .funcDef _ _ _ _ => true
      | .classDef _ _ => true
      | _ => false)).length
  | _ => 0

/-- Modelled from the spec: the number of *module-top-level* import statements
("Nested imports (inside functions/classes) are not collected"), used to
compare the code's catalog with the claimed contents. -/
def specTopLevelImportCount (m : PyNode) : Nat :=
  match m with
  | .module body =>
    (body.filter (fun s =>
      match s with
      | .importStmt _ => true
      | _ => false)).length
  | _ => 0

/-- One catalog entry as `_get_imports_for_node` consumes it: the import
node's `names` alias list together with the statement's original source text
(`ast.get_source_segment` of the import node). -/
structure ImportStmtRec where
  names : List (String × Option String)
  text : String
deriving DecidableEq

/-- The inner test of `_get_imports_for_node`:
`any(alias.name in ast.dump(n) for n in ast.walk(node))` — the alias's
*stated* name (`alias.name`, never `alias.asname`) tested as a substring of
the dump of some node of the subtree. -/
def matchAliasWalk (node : PyNode) (al : String × Option String) : Bool :=
  (walk node).any (fun n => containsSub al.1.toList (dumpNode n))

/-- The loop of `_get_imports_for_node`: for each catalogued import in order,
append its original text once if any of its aliases matches (the `break`
leaves the alias loop after the first match). -/
def usedImports (node : PyNode) : List ImportStmtRec → List String
  | [] => []
  | imp :: rest =>
    if imp.names.any (matchAliasWalk node) then imp.text :: usedImports node rest
    else usedImports node rest

/-- `_get_imports_for_node`'s return value: `"\n".join(used_imports) + "\n"`. -/
def getImportsForNode (node : PyNode) (imports : List ImportStmtRec) : String :=
  String.intercalate "\n" (usedImports node imports) ++ "\n"

/-- The trailing run of characters after the last `.` of a dotted path (the
whole string when it has no dot). -/
def lastComponent (s : String) : String :=
  String.mk (((s.toList).reverse.takeWhile (fun c => c ≠ '.')).reverse)

/-- Modelled from the spec: the bound name of an import alias — "the alias, or
the last component of the imported path when there is no alias". -/
def specBoundName (al : String × Option String) : String :=
  match al.2 with
  | some a => a
  | none => lastComponent al.1

/-- Modelled from the spec: whether a name "occurs as an identifier somewhere
in the definition's subtree" (an `ast.Name` node with that id). -/
def specHasIdentOccurrence (s : String) (node : PyNode) : Bool :=
  (walk node).any (fun m =>
    match m with
    | .name i => i == s
    | _ => false)

/-- The test of `_handle_method_attributes` on one walked node:
`isinstance(node, ast.Attribute) and isinstance(node.value, ast.Name) and
node.value.id == 'self'` — yielding the accessed attribute name. -/
def extractSelfAttr : PyNode → Option String
  | .attrAccess (.name v) b => if v == "self" then some b else none
  | _ => none

/-- One step of `_handle_method_attributes`'s loop: add the attribute name to
the set (modelled as a duplicate-free list in first-insertion order) when the
walked node is a `self.<attr>` access. -/
def attrStep (s : List String) (n : PyNode) : List String :=
  match extractSelfAttr n with
  | some b => if s.contains b then s else s ++ [b]
  | none => s

/-- `_handle_method_attributes`: walk the method and collect into a set every
attribute accessed on the literal receiver `self`. -/
def handleMethodAttributes (m : PyNode) : List String :=
  (walk m).foldl attrStep []

/-- Whether a node is an access `self.a` for the given attribute name `a`. -/
def isSelfAttrOccurrence (a : String) (n : PyNode) : Bool :=
  match extractSelfAttr n with
  | some b => b == a
  | none => false

/-- Modelled from the spec: attribute discovery keyed on "the method's literal
first-parameter identifier (conventionally `self`)" — the receiver recognized
is the method's actual first parameter name. -/
def specInstanceAttrs (m : PyNode) : List String :=
  match m with
  | .funcDef _ ps body decos =>
    let recv := ps.headD "self"
    (walk (.funcDef "" ps body decos)).foldl
      (fun s n =>
        match n with
        | .attrAccess (.name v) b =>
          if v == recv then (if s.contains b then s else s ++ [b]) else s
        | _ => s)
      []
  | _ => []

/-- The inputs of `_create_function_file` / `_create_class_file` for one
definition: its AST node (for import resolution), the source segments of its
decorators, and its own exact source segment. -/
structure DefInfo where
  node : PyNode
  decoSegs : List String
  span : String

/-- `_create_function_file` (and the textually identical
`_create_class_file`): build `func_code` starting from the resolved imports,
append each decorator's segment plus a newline, append the definition's
segment, and then write `self._get_imports_for_node(func) + func_code` — note
the resolved import block is prepended a second time by the `write` call. -/
def createFunctionFileContent (imports : List ImportStmtRec) (d : DefInfo) : String :=
  let imp := getImportsForNode d.node imports
  let afterDecos := d.decoSegs.foldl (fun acc s => acc ++ s ++ "\n") imp
  let funcCode := afterDecos ++ d.span
  imp ++ funcCode

/-- Modelled from the spec: the claimed composition of an emitted definition
file — "exactly the resolved import statements, followed by each decorator's
exact source text (in order, each on its own line), followed by the
definition's exact span text — nothing more". -/
def specFunctionFileContent (imports : List ImportStmtRec) (d : DefInfo) : String :=
  getImportsForNode d.node imports
    ++ d.decoSegs.foldl (fun acc s => acc ++ s ++ "\n") ""
    ++ d.span

/-- `_get_imports_code`: the original text of *every* catalogued import,
each followed by a newline, concatenated in catalog order — no usage
filtering. -/
def getImportsCode (imports : List ImportStmtRec) : String :=
  imports.foldl (fun acc i => acc ++ (i.text ++ "\n")) ""

/-- `_create_method_file`: the emitted file is the full unfiltered import
catalog, then a synthesized header
`def <name>(self, <discovered attributes>):`, then the original method body
lines (all lines of the segment after the first) each reindented by four
spaces.  (`list(attributes)` enumerates a Python `set`, whose order is
unspecified; the model uses first-insertion order.) -/
def createMethodFileContent (method : PyNode) (span : String) (imports : List ImportStmtRec) :
    String :=
  let attributes := handleMethodAttributes method
  let args := String.intercalate ", " ("self" :: attributes)
  let header := "def " ++ defName method ++ "(" ++ args ++ "):\n"
  let body :=
    ((span.splitOn "\n").drop 1).foldl (fun acc line => acc ++ ("    " ++ line ++ "\n")) ""
  getImportsCode imports ++ (header ++ body)

/-- The filesystem-visible actions of one invocation, in program order. -/
inductive Effect where
  | chdir
  | createBranch (nm : String)
  | removeOutputDir
  | makeOutputDir
  | readScript
  | writeFile (nm : String)
  | overwriteScript
  | commitAll
deriving DecidableEq

/-- `split_functions` as a trace of effects plus an exit code: delete the
output directory if it exists, recreate it, read the script, then parse —
a parse failure (`parsed = none`) is caught by the `except` clause, which
reports and exits with status 1; on success one file per collected definition
is written and the original script is overwritten. -/
def splitEffects (outputDirExists : Bool) (parsed : Option PyNode) : Nat × List Effect :=
  let pre := (if outputDirExists then [Effect.removeOutputDir] else [])
    ++ [Effect.makeOutputDir, Effect.readScript]
  match parsed with
  | none => (1, pre)
  | some m => (0, pre ++ (splitOutputFiles m).map Effect.writeFile ++ [Effect.overwriteScript])

/-- `_is_git_repo` reduced to its gating result: whether any of
`[resolved path] + parents` contains a `.git` marker. -/
def isGitRepo (markers : List Bool) : Bool := markers.any id

/-- The `__main__` block: if `_is_git_repo` finds a repository, change into
it, create the `split-functions` branch, run `split_functions`, and commit;
otherwise print a message and `sys.exit(1)` before doing anything else. -/
def mainRun (markers : List Bool) (outputDirExists : Bool) (parsed : Option PyNode) :
    Nat × List Effect :=
  if isGitRepo markers then
    let r := splitEffects outputDirExists parsed
    if r.1 = 0 then
      (0, Effect.chdir :: Effect.createBranch "split-functions" :: (r.2 ++ [Effect.commitAll]))
    else
      (r.1, Effect.chdir :: Effect.createBranch "split-functions" :: r.2)
  else (1, [])

/-! Lemmas about `countOccs`, `replaceAll` and `replaceFirst`. -/

theorem countOccs_nil {p : List Char} (hp : p ≠ []) : countOccs p [] = 0 := by
  simp [countOccs, hp]

theorem countOccs_cons (p : List Char) (c : Char) (rest : List Char) :
    countOccs p (c :: rest) = (if p.isPrefixOf (c :: rest) then 1 else 0) + countOccs p rest :=
  rfl

theorem isPrefixOf_append_self (p B : List Char) : p.isPrefixOf (p ++ B) = true := by
  simp

theorem isPrefixOf_extend {p x : List Char} (y : List Char) (h : p.isPrefixOf x = true) :
    p.isPrefixOf (x ++ y) = true := by
  simp only [List.isPrefixOf_iff_prefix] at h ⊢
  exact h.trans (List.prefix_append x y)

theorem isPrefixOf_of_append {p x B : List Char} (h : p.isPrefixOf (x ++ B) = true)
    (hl : p.length ≤ x.length) : p.isPrefixOf x = true := by
  simp only [List.isPrefixOf_iff_prefix] at h ⊢
  rw [List.prefix_iff_eq_take] at h ⊢
  rw [List.take_append_of_le_length hl] at h
  exact h

theorem countOccs_le_left (p x l : List Char) : countOccs p l ≤ countOccs p (x ++ l) := by
  induction x with
  | nil => simp
  | cons a x' ih =>
    rw [List.cons_append, countOccs_cons]
    exact le_trans ih (Nat.le_add_left _ _)

theorem countOccs_le_right (p l y : List Char) (hp : p ≠ []) :
    countOccs p l ≤ countOccs p (l ++ y) := by
  induction l with
  | nil => simp [countOccs_nil hp]
  | cons c l' ih =>
    rw [List.cons_append, countOccs_cons, countOccs_cons]
    have he : (if p.isPrefixOf (c :: l') then 1 else 0)
        ≤ (if p.isPrefixOf (c :: (l' ++ y)) then 1 else 0) := by
      by_cases h : p.isPrefixOf (c :: l') = true
      · have := isPrefixOf_extend y h
        rw [List.cons_append] at this
        rw [if_pos h, if_pos this]
      · rw [if_neg h]
        exact Nat.zero_le _
    omega

theorem one_add_le_countOccs_self_append (p B : List Char) (hp : p ≠ []) :
    1 + countOccs p B ≤ countOccs p (p ++ B) := by
  cases p with
  | nil => exact absurd rfl hp
  | cons c p' =>
    rw [List.cons_append, countOccs_cons]
    have h1 : (c :: p').isPrefixOf (c :: (p' ++ B)) = true := by
      have := isPrefixOf_append_self (c :: p') B
      rwa [List.cons_append] at this
    rw [if_pos h1]
    have h2 : countOccs (c :: p') B ≤ countOccs (c :: p') (p' ++ B) :=
      countOccs_le_left (c :: p') p' B
    omega

theorem one_le_countOccs_self (p : List Char) (hp : p ≠ []) : 1 ≤ countOccs p p := by
  have h := one_add_le_countOccs_self_append p [] hp
  rw [List.append_nil, countOccs_nil hp] at h
  omega

theorem replaceAllF_congr (p r : List Char) :
    ∀ (fuel fuel' : Nat) (l : List Char), l.length ≤ fuel → l.length ≤ fuel' →
      replaceAllF p r fuel l = replaceAllF p r fuel' l := by
  intro fuel
  induction fuel with
  | zero =>
    intro fuel' l h h'
    have hl : l = [] := by
      cases l with
      | nil => rfl
      | cons c t => simp at h
    subst hl
    cases fuel' <;> rfl
  | succ f ih =>
    intro fuel' l h h'
    cases l with
    | nil => cases fuel' <;> rfl
    | cons c rest =>
      cases fuel' with
      | zero => simp at h'
      | succ f' =>
        simp only [replaceAllF]
        by_cases hb : p.isPrefixOf (c :: rest) = true ∧ p ≠ []
        · rw [if_pos hb, if_pos hb]
          congr 1
          apply ih
          · have hp : 0 < p.length := List.length_pos.mpr hb.2
            simp only [List.length_drop, List.length_cons]
            simp only [List.length_cons] at h
            omega
          · have hp : 0 < p.length := List.length_pos.mpr hb.2
            simp only [List.length_drop, List.length_cons]
            simp only [List.length_cons] at h'
            omega
        · rw [if_neg hb, if_neg hb]
          congr 1
          apply ih
          · simp only [List.length_cons] at h
            omega
          · simp only [List.length_cons] at h'
            omega

theorem replaceAll_nil (p r : List Char) : replaceAll p r [] = [] := rfl

theorem replaceAll_cons_pos {p : List Char} (r : List Char) {c : Char} {rest : List Char}
    (h1 : p.isPrefixOf (c :: rest) = true) (h2 : p ≠ []) :
    replaceAll p r (c :: rest) = r ++ replaceAll p r (List.drop p.length (c :: rest)) := by
  show replaceAllF p r (c :: rest).length (c :: rest) = _
  rw [List.length_cons]
  simp only [replaceAllF]
  rw [if_pos ⟨h1, h2⟩]
  congr 1
  apply replaceAllF_congr
  · have hp : 0 < p.length := List.length_pos.mpr h2
    simp only [List.length_drop, List.length_cons]
    omega
  · exact le_refl _

theorem replaceAll_cons_neg {p : List Char} (r : List Char) {c : Char} {rest : List Char}
    (h : ¬p.isPrefixOf (c :: rest) = true) :
    replaceAll p r (c :: rest) = c :: replaceAll p r rest := by
  show replaceAllF p r (c :: rest).length (c :: rest) = _
  rw [List.length_cons]
  simp only [replaceAllF]
  rw [if_neg (fun hh => h hh.1)]
  rfl

theorem replaceFirst_cons_pos {p : List Char} (r : List Char) {c : Char} {rest : List Char}
    (h1 : p.isPrefixOf (c :: rest) = true) (h2 : p ≠ []) :
    replaceFirst p r (c :: rest) = r ++ List.drop p.length (c :: rest) := by
  simp [replaceFirst, h1, h2]

theorem replaceFirst_cons_neg {p : List Char} (r : List Char) {c : Char} {rest : List Char}
    (h : ¬p.isPrefixOf (c :: rest) = true) :
    replaceFirst p r (c :: rest) = c :: replaceFirst p r rest := by
  simp [replaceFirst, fun hh => h hh]

theorem replaceAll_of_countOccs_zero {p : List Char} (r : List Char) {l : List Char}
    (_hp : p ≠ []) (h : countOccs p l = 0) : replaceAll p r l = l := by
  induction l with
  | nil => exact replaceAll_nil p r
  | cons c rest ih =>
    rw [countOccs_cons] at h
    have hpre : ¬p.isPrefixOf (c :: rest) = true := by
      intro hb
      rw [if_pos hb] at h
      omega
    have h0 : countOccs p rest = 0 := by
      rw [if_neg hpre] at h
      simpa using h
    rw [replaceAll_cons_neg r hpre, ih h0]

theorem replaceAll_split (p r : List Char) (A B : List Char) (hp : p ≠ [])
    (h : countOccs p (A ++ p) = 1) :
    replaceAll p r (A ++ p ++ B) = A ++ r ++ replaceAll p r B := by
  induction A with
  | nil =>
    simp only [List.nil_append]
    obtain ⟨c, p', rfl⟩ : ∃ c p', p = c :: p' := by
      cases p with
      | nil => exact absurd rfl hp
      | cons c p' => exact ⟨c, p', rfl⟩
    have h1 : (c :: p').isPrefixOf ((c :: p') ++ B) = true := isPrefixOf_append_self _ B
    rw [List.cons_append] at h1
    rw [List.cons_append, replaceAll_cons_pos r h1 hp]
    rw [← List.cons_append, List.drop_left]
  | cons a A' ih =>
    simp only [List.cons_append]
    by_cases hpre : p.isPrefixOf (a :: (A' ++ p ++ B)) = true
    · exfalso
      have hx : p.isPrefixOf (a :: (A' ++ p)) = true := by
        apply isPrefixOf_of_append (B := B)
        · rw [List.cons_append]
          exact hpre
        · simp only [List.length_cons, List.length_append]
          omega
      have hge : 2 ≤ countOccs p ((a :: A') ++ p) := by
        rw [List.cons_append, countOccs_cons, if_pos hx]
        have : 1 ≤ countOccs p (A' ++ p) :=
          le_trans (one_le_countOccs_self p hp) (countOccs_le_left p A' p)
        omega
      omega
    · have hx : ¬p.isPrefixOf (a :: (A' ++ p)) = true := by
        intro hb
        apply hpre
        have := isPrefixOf_extend B hb
        rwa [List.cons_append] at this
      have h' : countOccs p (A' ++ p) = 1 := by
        rw [List.cons_append, countOccs_cons, if_neg hx] at h
        simpa using h
      rw [replaceAll_cons_neg r hpre, ih h']

theorem replaceFirst_split (p r : List Char) (A B : List Char) (hp : p ≠ [])
    (h : countOccs p (A ++ p) = 1) :
    replaceFirst p r (A ++ p ++ B) = A ++ r ++ B := by
  induction A with
  | nil =>
    simp only [List.nil_append]
    obtain ⟨c, p', rfl⟩ : ∃ c p', p = c :: p' := by
      cases p with
      | nil => exact absurd rfl hp
      | cons c p' => exact ⟨c, p', rfl⟩
    have h1 : (c :: p').isPrefixOf ((c :: p') ++ B) = true := isPrefixOf_append_self _ B
    rw [List.cons_append] at h1
    rw [List.cons_append, replaceFirst_cons_pos r h1 hp]
    rw [← List.cons_append, List.drop_left]
  | cons a A' ih =>
    simp only [List.cons_append]
    by_cases hpre : p.isPrefixOf (a :: (A' ++ p ++ B)) = true
    · exfalso
      have hx : p.isPrefixOf (a :: (A' ++ p)) = true := by
        apply isPrefixOf_of_append (B := B)
        · rw [List.cons_append]
          exact hpre
        · simp only [List.length_cons, List.length_append]
          omega
      have hge : 2 ≤ countOccs p ((a :: A') ++ p) := by
        rw [List.cons_append, countOccs_cons, if_pos hx]
        have : 1 ≤ countOccs p (A' ++ p) :=
          le_trans (one_le_countOccs_self p hp) (countOccs_le_left p A' p)
        omega
      omega
    · have hx : ¬p.isPrefixOf (a :: (A' ++ p)) = true := by
        intro hb
        apply hpre
        have := isPrefixOf_extend B hb
        rwa [List.cons_append] at this
      have h' : countOccs p (A' ++ p) = 1 := by
        rw [List.cons_append, countOccs_cons, if_neg hx] at h
        simpa using h
      rw [replaceFirst_cons_neg r hpre, ih h']

theorem replaceAll_unique (p r A B : List Char) (hp : p ≠ [])
    (h : countOccs p (A ++ p ++ B) = 1) : replaceAll p r (A ++ p ++ B) = A ++ r ++ B := by
  have hAp : countOccs p (A ++ p) = 1 := by
    have hle : countOccs p (A ++ p) ≤ countOccs p (A ++ p ++ B) :=
      countOccs_le_right p (A ++ p) B hp
    have hge : 1 ≤ countOccs p (A ++ p) :=
      le_trans (one_le_countOccs_self p hp) (countOccs_le_left p A p)
    omega
  have hB : countOccs p B = 0 := by
    have h1 : countOccs p (p ++ B) ≤ countOccs p (A ++ (p ++ B)) :=
      countOccs_le_left p A (p ++ B)
    have h2 : 1 + countOccs p B ≤ countOccs p (p ++ B) :=
      one_add_le_countOccs_self_append p B hp
    rw [← List.append_assoc] at h1
    omega
  rw [replaceAll_split p r A B hp hAp, replaceAll_of_countOccs_zero r hp hB]

theorem importLine_ne_nil (n : List Char) : importLine n ≠ [] := by
  intro h
  have hl := congrArg List.length h
  have h6 : ("from .".toList).length = 6 := rfl
  simp only [importLine, List.length_append, List.length_nil, h6] at hl
  omega

theorem foldl_replaceAll_funcPass (parts : List (Bool × DefSpan × List Char)) (P : List Char)
    (h : funcPassOK P parts = true) :
    (funcDefsOf parts).foldl (fun acc d => replaceAll d.span (importLine d.name) acc)
        (P ++ layoutSrc parts)
      = P ++ layoutMid parts := by
  induction parts generalizing P with
  | nil => simp [layoutSrc, layoutMid, funcDefsOf]
  | cons item rest ih =>
    obtain ⟨f, d, b⟩ := item
    cases f with
    | true =>
      simp only [funcPassOK, Bool.and_eq_true] at h
      obtain ⟨⟨h1, h2⟩, h3⟩ := h
      have hne : d.span ≠ [] := by simpa using h1
      have hcount : countOccs d.span (P ++ (d.span ++ (b ++ layoutSrc rest))) = 1 := by
        have := of_decide_eq_true (by simpa [beq_iff_eq] using h2 : decide
          (countOccs d.span (P ++ d.span ++ b ++ layoutSrc rest) = 1) = true)
        simpa [List.append_assoc] using this
      have hstep : replaceAll d.span (importLine d.name)
            (P ++ (d.span ++ (b ++ layoutSrc rest)))
          = P ++ (importLine d.name ++ (b ++ layoutSrc rest)) := by
        have hu := replaceAll_unique d.span (importLine d.name) P (b ++ layoutSrc rest) hne
          (by simpa [List.append_assoc] using hcount)
        simpa [List.append_assoc] using hu
      simp only [funcDefsOf, List.foldl_cons, layoutSrc, layoutMid, List.append_assoc]
      rw [hstep]
      have h4 := ih (P ++ importLine d.name ++ b) h3
      simpa [List.append_assoc] using h4
    | false =>
      simp only [funcPassOK] at h
      simp only [funcDefsOf, layoutSrc, layoutMid, List.append_assoc]
      have h4 := ih (P ++ d.span ++ b) h
      simpa [List.append_assoc] using h4

theorem foldl_replaceAll_classPass (parts : List (Bool × DefSpan × List Char)) (P : List Char)
    (h : classPassOK P parts = true) :
    (classDefsOf parts).foldl (fun acc d => replaceAll d.span (importLine d.name) acc)
        (P ++ layoutMid parts)
      = P ++ layoutImp parts := by
  induction parts generalizing P with
  | nil => simp [layoutMid, layoutImp, classDefsOf]
  | cons item rest ih =>
    obtain ⟨f, d, b⟩ := item
    cases f with
    | true =>
      simp only [classPassOK] at h
      simp only [classDefsOf, layoutMid, layoutImp, List.append_assoc]
      have h4 := ih (P ++ importLine d.name ++ b) h
      simpa [List.append_assoc] using h4
    | false =>
      simp only [classPassOK, Bool.and_eq_true] at h
      obtain ⟨⟨h1, h2⟩, h3⟩ := h
      have hne : d.span ≠ [] := by simpa using h1
      have hcount : countOccs d.span (P ++ (d.span ++ (b ++ layoutMid rest))) = 1 := by
        have := of_decide_eq_true (by simpa [beq_iff_eq] using h2 : decide
          (countOccs d.span (P ++ d.span ++ b ++ layoutMid rest) = 1) = true)
        simpa [List.append_assoc] using this
      have hstep : replaceAll d.span (importLine d.name)
            (P ++ (d.span ++ (b ++ layoutMid rest)))
          = P ++ (importLine d.name ++ (b ++ layoutMid rest)) := by
        have hu := replaceAll_unique d.span (importLine d.name) P (b ++ layoutMid rest) hne
          (by simpa [List.append_assoc] using hcount)
        simpa [List.append_assoc] using hu
      simp only [classDefsOf, List.foldl_cons, layoutMid, layoutImp, List.append_assoc]
      rw [hstep]
      have h4 := ih (P ++ importLine d.name ++ b) h3
      simpa [List.append_assoc] using h4

theorem foldl_replaceFirst_layout (parts : List (Bool × DefSpan × List Char)) (P : List Char)
    (h : restoreOK P parts = true) :
    ((parts.map (fun x => x.2.1)).foldl
        (fun acc d => replaceFirst (importLine d.name) d.span acc) (P ++ layoutImp parts))
      = P ++ layoutSrc parts := by
  induction parts generalizing P with
  | nil => simp [layoutSrc, layoutImp]
  | cons item rest ih =>
    obtain ⟨f, d, b⟩ := item
    simp only [restoreOK, Bool.and_eq_true] at h
    obtain ⟨h2, h3⟩ := h
    have hcount : countOccs (importLine d.name) (P ++ importLine d.name) = 1 := by
      simpa [beq_iff_eq] using h2
    have hstep : replaceFirst (importLine d.name) d.span
          (P ++ (importLine d.name ++ (b ++ layoutImp rest)))
        = P ++ (d.span ++ (b ++ layoutImp rest)) := by
      have hu := replaceFirst_split (importLine d.name) d.span P (b ++ layoutImp rest)
        (importLine_ne_nil d.name) hcount
      simpa [List.append_assoc] using hu
    simp only [List.map_cons, List.foldl_cons, layoutSrc, layoutImp, List.append_assoc]
    rw [hstep]
    have h4 := ih (P ++ d.span ++ b) h3
    simpa [List.append_assoc] using h4

/-! Claim C2. -/

/-- C2, counterexample: the Script Rewriter's replacement step is Python
`str.replace`, which rewrites *every* occurrence of the definition's span
text, not only the first.  On a script consisting of two textually identical
definitions, the very first replacement step rewrites both occurrences at
once — the second occurrence does not survive the step, contradicting the
claimed first-occurrence-only semantics (`replaceFirst`). -/
theorem rewriter_alters_second_occurrence :
    updateOriginalScript [⟨"f".toList, "def f():\n    pass".toList⟩] []
        ("def f():\n    pass\n\ndef f():\n    pass\n").toList
      = ("from .f import f\n\n\nfrom .f import f\n\n").toList
    ∧ updateOriginalScript [⟨"f".toList, "def f():\n    pass".toList⟩] []
        ("def f():\n    pass\n\ndef f():\n    pass\n").toList
      ≠ replaceFirst ("def f():\n    pass").toList (importLine "f".toList)
          ("def f():\n    pass\n\ndef f():\n    pass\n").toList :=
  ⟨by decide, by decide⟩

/-- C2 (amended): for each collected definition, processed in order (all
functions, then all classes), the Script Rewriter replaces *every* occurrence
of that definition's exact span text within the accumulating rewritten text by
the line `from .<name> import <name>` (Python `str.replace` semantics); in
particular a step on a text containing the span twice rewrites both
occurrences. -/
theorem rewriter_replaces_every_occurrence (d : DefSpan) (A B C : List Char)
    (hp : d.span ≠ [])
    (h1 : countOccs d.span (A ++ d.span) = 1)
    (h2 : countOccs d.span (B ++ d.span) = 1)
    (h3 : countOccs d.span C = 0) :
    updateOriginalScript [d] [] (A ++ d.span ++ B ++ d.span ++ C)
      = A ++ importLine d.name ++ B ++ importLine d.name ++ C := by
  have e : updateOriginalScript [d] [] (A ++ d.span ++ B ++ d.span ++ C)
      = replaceAll d.span (importLine d.name) (A ++ d.span ++ B ++ d.span ++ C) := by
    simp [updateOriginalScript]
  rw [e]
  rw [show A ++ d.span ++ B ++ d.span ++ C = A ++ d.span ++ (B ++ d.span ++ C) by
    simp [List.append_assoc]]
  rw [replaceAll_split d.span (importLine d.name) A (B ++ d.span ++ C) hp h1]
  rw [replaceAll_split d.span (importLine d.name) B C hp h2]
  rw [replaceAll_of_countOccs_zero (importLine d.name) hp h3]
  simp [List.append_assoc]

/-- Witness for `rewriter_replaces_every_occurrence` at a concrete script with
two occurrences of the same span. -/
theorem rewriter_replaces_every_occurrence_witness :
    (("def f():\n    pass").toList ≠ [])
    ∧ countOccs ("def f():\n    pass").toList ("# a\n".toList ++ ("def f():\n    pass").toList)
        = 1
    ∧ countOccs ("def f():\n    pass").toList ("\n\n".toList ++ ("def f():\n    pass").toList)
        = 1
    ∧ countOccs ("def f():\n    pass").toList ("\n".toList) = 0
    ∧ updateOriginalScript [⟨"f".toList, "def f():\n    pass".toList⟩] []
        ("# a\n".toList ++ ("def f():\n    pass").toList ++ "\n\n".toList
          ++ ("def f():\n    pass").toList ++ "\n".toList)
      = "# a\n".toList ++ importLine "f".toList ++ "\n\n".toList
          ++ importLine "f".toList ++ "\n".toList :=
  ⟨by decide, by decide, by decide, by decide,
    rewriter_replaces_every_occurrence
      (⟨"f".toList, "def f():\n    pass".toList⟩ : DefSpan)
      ("# a\n".toList) ("\n\n".toList) ("\n".toList)
      (by decide) (by decide) (by decide) (by decide)⟩

/-! Claim C3. -/

/-- C3, counterexample: the claim's hypothesis (no two collected definitions
with identical span text — trivially true here, there is a single definition)
does not suffice for the round trip.  In a source file whose leading text
already contains the characters `from .f import f\n` (inside a triple-quoted
string literal), back-substituting the inserted import line replaces that
pre-existing occurrence instead, so the original file is not reproduced. -/
theorem restore_not_inverse_on_preexisting_import_line :
    ([(⟨"f".toList, "def f():\n    pass".toList⟩ : DefSpan)].map DefSpan.span).Nodup
    ∧ restoreScript [⟨"f".toList, "def f():\n    pass".toList⟩]
        (updateOriginalScript [⟨"f".toList, "def f():\n    pass".toList⟩] []
          ("x=\"\"\"from .f import f\n\"\"\"\ndef f():\n    pass\n").toList)
      ≠ ("x=\"\"\"from .f import f\n\"\"\"\ndef f():\n    pass\n").toList :=
  ⟨by decide, by decide⟩

/-- C3 (amended): for a source file whose collected definitions occur as
disjoint spans in source order — functions and classes interleaved in any
textual order, while the rewriter still processes all functions first and
then all classes, each group in source order — back-substituting each
inserted `from .<name> import <name>` line by its original span, in source
order, reproduces the original text byte-for-byte **provided additionally**
that each span occurs exactly once in the then-current text when its pass
reaches it (`funcPassOK`/`classPassOK` — excluded by a span recurring, e.g.
inside a string literal) and that at each backward step the leftmost
occurrence of the import line is the inserted one (`restoreOK` — excluded by
the import-line text pre-existing in the file). -/
theorem rewrite_restore_roundtrip (B0 : List Char) (parts : List (Bool × DefSpan × List Char))
    (hf : funcPassOK B0 parts = true)
    (hc : classPassOK B0 parts = true)
    (hi : restoreOK B0 parts = true) :
    restoreScript (parts.map (fun x => x.2.1))
        (updateOriginalScript (funcDefsOf parts) (classDefsOf parts) (srcTextL B0 parts))
      = srcTextL B0 parts := by
  have hA : (funcDefsOf parts).foldl (fun acc d => replaceAll d.span (importLine d.name) acc)
      (B0 ++ layoutSrc parts) = B0 ++ layoutMid parts := foldl_replaceAll_funcPass parts B0 hf
  have hB : (classDefsOf parts).foldl (fun acc d => replaceAll d.span (importLine d.name) acc)
      (B0 ++ layoutMid parts) = B0 ++ layoutImp parts := foldl_replaceAll_classPass parts B0 hc
  have hU : updateOriginalScript (funcDefsOf parts) (classDefsOf parts) (srcTextL B0 parts)
      = B0 ++ layoutImp parts := by
    show (classDefsOf parts).foldl (fun acc d => replaceAll d.span (importLine d.name) acc)
        ((funcDefsOf parts).foldl (fun acc d => replaceAll d.span (importLine d.name) acc)
          (B0 ++ layoutSrc parts))
      = B0 ++ layoutImp parts
    rw [hA, hB]
  rw [hU]
  show ((parts.map (fun x => x.2.1)).foldl
      (fun acc d => replaceFirst (importLine d.name) d.span acc) (B0 ++ layoutImp parts))
    = srcTextL B0 parts
  rw [foldl_replaceFirst_layout parts B0 hi]
  rfl

/-- Witness for `rewrite_restore_roundtrip` on a concrete file whose class
textually precedes its function — the layout the rewriter's
functions-then-classes processing order reverses. -/
theorem rewrite_restore_roundtrip_witness :
    funcPassOK ("# top\n".toList)
        [(false, ⟨"C".toList, "class C:\n    pass".toList⟩, "\n\n".toList),
         (true, ⟨"f".toList, "def f():\n    pass".toList⟩, "\n".toList)] = true
    ∧ classPassOK ("# top\n".toList)
        [(false, ⟨"C".toList, "class C:\n    pass".toList⟩, "\n\n".toList),
         (true, ⟨"f".toList, "def f():\n    pass".toList⟩, "\n".toList)] = true
    ∧ restoreOK ("# top\n".toList)
        [(false, ⟨"C".toList, "class C:\n    pass".toList⟩, "\n\n".toList),
         (true, ⟨"f".toList, "def f():\n    pass".toList⟩, "\n".toList)] = true
    ∧ restoreScript
        (([(false, ⟨"C".toList, "class C:\n    pass".toList⟩, "\n\n".toList),
           (true, ⟨"f".toList, "def f():\n    pass".toList⟩, "\n".toList)]
            : List (Bool × DefSpan × List Char)).map (fun x => x.2.1))
        (updateOriginalScript
          (funcDefsOf [(false, ⟨"C".toList, "class C:\n    pass".toList⟩, "\n\n".toList),
            (true, ⟨"f".toList, "def f():\n    pass".toList⟩, "\n".toList)])
          (classDefsOf [(false, ⟨"C".toList, "class C:\n    pass".toList⟩, "\n\n".toList),
            (true, ⟨"f".toList, "def f():\n    pass".toList⟩, "\n".toList)])
          (srcTextL ("# top\n".toList)
            [(false, ⟨"C".toList, "class C:\n    pass".toList⟩, "\n\n".toList),
             (true, ⟨"f".toList, "def f():\n    pass".toList⟩, "\n".toList)]))
      = srcTextL ("# top\n".toList)
          [(false, ⟨"C".toList, "class C:\n    pass".toList⟩, "\n\n".toList),
           (true, ⟨"f".toList, "def f():\n    pass".toList⟩, "\n".toList)] :=
  ⟨by decide, by decide, by decide,
    rewrite_restore_roundtrip ("# top\n".toList)
      [(false, ⟨"C".toList, "class C:\n    pass".toList⟩, "\n\n".toList),
       (true, ⟨"f".toList, "def f():\n    pass".toList⟩, "\n".toList)]
      (by decide) (by decide) (by decide)⟩

/-! Lemmas about `walk`, `dumpNode` and the Usage Resolver. -/

theorem infix_append_right {l m : List Char} (x : List Char) (h : l <:+: m) : l <:+: x ++ m := by
  obtain ⟨s, t, hst⟩ := h
  exact ⟨x ++ s, t, by rw [← hst]; simp [List.append_assoc]⟩

theorem infix_append_left {l m : List Char} (y : List Char) (h : l <:+: m) : l <:+: m ++ y := by
  obtain ⟨s, t, hst⟩ := h
  exact ⟨s, t ++ y, by rw [← hst]; simp [List.append_assoc]⟩

theorem containsSub_iff (p l : List Char) : containsSub p l = true ↔ p <:+: l := by
  induction l with
  | nil => simp [containsSub]
  | cons c rest ih => simp [containsSub, Bool.or_eq_true, ih, List.infix_cons_iff]

theorem mem_walk_self (n : PyNode) : n ∈ walk n := by
  cases n <;> simp [walk]

theorem mem_walkList_iff (ns : List PyNode) (m : PyNode) :
    m ∈ walkList ns ↔ ∃ n ∈ ns, m ∈ walk n := by
  induction ns with
  | nil => simp [walkList]
  | cons a as ih => simp [walkList, List.mem_append, ih]

theorem dumpNode_infix_dumpList (ns : List PyNode) (n : PyNode) (h : n ∈ ns) :
    dumpNode n <:+: dumpList ns := by
  induction ns with
  | nil => simp at h
  | cons a as ih =>
    rcases List.mem_cons.mp h with rfl | hmem
    · cases as with
      | nil => exact List.infix_refl _
      | cons b bs =>
        have e : dumpList (n :: b :: bs) = dumpNode n ++ (", ".toList ++ dumpList (b :: bs)) := by
          simp [dumpList, List.append_assoc]
        rw [e]
        exact infix_append_left _ (List.infix_refl _)
    · cases as with
      | nil => simp at hmem
      | cons b bs =>
        have e : dumpList (a :: b :: bs) = (dumpNode a ++ ", ".toList) ++ dumpList (b :: bs) := by
          simp [dumpList, List.append_assoc]
        rw [e]
        exact infix_append_right _ (ih hmem)

theorem sizeOf_pos_pynode (n : PyNode) : 0 < sizeOf n := by
  cases n <;> simp

theorem infix_piece {l child : List Char} (X Y : List Char) (h : l <:+: child) :
    l <:+: X ++ (child ++ Y) :=
  infix_append_right _ (infix_append_left _ h)

theorem dumpNode_infix_of_mem_walk_aux (k : Nat) :
    ∀ (root : PyNode), sizeOf root ≤ k → ∀ m, m ∈ walk root →
      dumpNode m <:+: dumpNode root := by
  induction k with
  | zero =>
    intro root hr
    exact absurd hr (by have := sizeOf_pos_pynode root; omega)
  | succ k ih =>
    intro root hr m hm
    cases root with
    | name i =>
      simp [walk] at hm
      subst hm
      exact List.infix_refl _
    | strConst v =>
      simp [walk] at hm
      subst hm
      exact List.infix_refl _
    | numConst v =>
      simp [walk] at hm
      subst hm
      exact List.infix_refl _
    | passStmt =>
      simp [walk] at hm
      subst hm
      exact List.infix_refl _
    | importStmt ns =>
      simp [walk] at hm
      subst hm
      exact List.infix_refl _
    | attrAccess v a =>
      simp only [walk, List.mem_cons] at hm
      rcases hm with rfl | hm
      · exact List.infix_refl _
      · have hsz : sizeOf v ≤ k := by
          have hh := hr
          simp at hh
          omega
        have e : dumpNode (.attrAccess v a)
            = "Attribute(value=".toList
              ++ (dumpNode v ++ (", attr=\"".toList ++ (a.toList ++ "\", ctx=Load())".toList))) := by
          simp [dumpNode, List.append_assoc]
        rw [e]
        exact infix_piece _ _ (ih v hsz m hm)
    | exprStmt e1 =>
      simp only [walk, List.mem_cons] at hm
      rcases hm with rfl | hm
      · exact List.infix_refl _
      · have hsz : sizeOf e1 ≤ k := by
          have hh := hr
          simp at hh
          omega
        have e : dumpNode (.exprStmt e1)
            = "Expr(value=".toList ++ (dumpNode e1 ++ ")".toList) := by
          simp [dumpNode, List.append_assoc]
        rw [e]
        exact infix_piece _ _ (ih e1 hsz m hm)
    | ret e1 =>
      simp only [walk, List.mem_cons] at hm
      rcases hm with rfl | hm
      · exact List.infix_refl _
      · have hsz : sizeOf e1 ≤ k := by
          have hh := hr
          simp at hh
          omega
        have e : dumpNode (.ret e1)
            = "Return(value=".toList ++ (dumpNode e1 ++ ")".toList) := by
          simp [dumpNode, List.append_assoc]
        rw [e]
        exact infix_piece _ _ (ih e1 hsz m hm)
    | assign t v =>
      simp only [walk, List.mem_cons, List.mem_append] at hm
      rcases hm with rfl | hm | hm
      · exact List.infix_refl _
      · have hsz : sizeOf t ≤ k := by
          have hh := hr
          simp at hh
          omega
        have e : dumpNode (.assign t v)
            = "Assign(targets=[".toList
              ++ (dumpNode t ++ ("], value=".toList ++ (dumpNode v ++ ")".toList))) := by
          simp [dumpNode, List.append_assoc]
        rw [e]
        exact infix_piece _ _ (ih t hsz m hm)
      · have hsz : sizeOf v ≤ k := by
          have hh := hr
          simp at hh
          omega
        have e : dumpNode (.assign t v)
            = ("Assign(targets=[".toList ++ dumpNode t ++ "], value=".toList)
              ++ (dumpNode v ++ ")".toList) := by
          simp [dumpNode, List.append_assoc]
        rw [e]
        exact infix_piece _ _ (ih v hsz m hm)
    | call f args =>
      simp only [walk, List.mem_cons, List.mem_append] at hm
      rcases hm with rfl | hm | hm
      · exact List.infix_refl _
      · have hsz : sizeOf f ≤ k := by
          have hh := hr
          simp at hh
          omega
        have e : dumpNode (.call f args)
            = "Call(func=".toList
              ++ (dumpNode f ++ (", args=[".toList
                ++ (dumpList args ++ "], keywords=[])".toList))) := by
          simp [dumpNode, List.append_assoc]
        rw [e]
        exact infix_piece _ _ (ih f hsz m hm)
      · rw [mem_walkList_iff] at hm
        obtain ⟨n, hn, hmn⟩ := hm
        have hsz : sizeOf n ≤ k := by
          have h1 := List.sizeOf_lt_of_mem hn
          have hh := hr
          simp at hh
          omega
        have e : dumpNode (.call f args)
            = ("Call(func=".toList ++ dumpNode f ++ ", args=[".toList)
              ++ (dumpList args ++ "], keywords=[])".toList) := by
          simp [dumpNode, List.append_assoc]
        rw [e]
        exact infix_piece _ _ ((ih n hsz m hmn).trans (dumpNode_infix_dumpList args n hn))
    | funcDef nm ps body decos =>
      simp only [walk, List.mem_cons, List.mem_append] at hm
      rcases hm with rfl | hm | hm
      · exact List.infix_refl _
      · rw [mem_walkList_iff] at hm
        obtain ⟨n, hn, hmn⟩ := hm
        have hsz : sizeOf n ≤ k := by
          have h1 := List.sizeOf_lt_of_mem hn
          have hh := hr
          simp at hh
          omega
        have e : dumpNode (.funcDef nm ps body decos)
            = ("FunctionDef(name=\"".toList ++ nm.toList ++ "\", args=arguments(args=[".toList
                ++ dumpParams ps ++ "]), body=[".toList ++ dumpList body
                ++ "], decorator_list=[".toList)
              ++ (dumpList decos ++ "])".toList) := by
          simp [dumpNode, List.append_assoc]
        rw [e]
        exact infix_piece _ _ ((ih n hsz m hmn).trans (dumpNode_infix_dumpList decos n hn))
      · rw [mem_walkList_iff] at hm
        obtain ⟨n, hn, hmn⟩ := hm
        have hsz : sizeOf n ≤ k := by
          have h1 := List.sizeOf_lt_of_mem hn
          have hh := hr
          simp at hh
          omega
        have e : dumpNode (.funcDef nm ps body decos)
            = ("FunctionDef(name=\"".toList ++ nm.toList ++ "\", args=arguments(args=[".toList
                ++ dumpParams ps ++ "]), body=[".toList)
              ++ (dumpList body
                ++ ("], decorator_list=[".toList ++ (dumpList decos ++ "])".toList))) := by
          simp [dumpNode, List.append_assoc]
        rw [e]
        exact infix_piece _ _ ((ih n hsz m hmn).trans (dumpNode_infix_dumpList body n hn))
    | classDef nm body =>
      simp only [walk, List.mem_cons] at hm
      rcases hm with rfl | hm
      · exact List.infix_refl _
      · rw [mem_walkList_iff] at hm
        obtain ⟨n, hn, hmn⟩ := hm
        have hsz : sizeOf n ≤ k := by
          have h1 := List.sizeOf_lt_of_mem hn
          have hh := hr
          simp at hh
          omega
        have e : dumpNode (.classDef nm body)
            = ("ClassDef(name=\"".toList ++ nm.toList ++ "\", body=[".toList)
              ++ (dumpList body ++ "])".toList) := by
          simp [dumpNode, List.append_assoc]
        rw [e]
        exact infix_piece _ _ ((ih n hsz m hmn).trans (dumpNode_infix_dumpList body n hn))
    | module body =>
      simp only [walk, List.mem_cons] at hm
      rcases hm with rfl | hm
      · exact List.infix_refl _
      · rw [mem_walkList_iff] at hm
        obtain ⟨n, hn, hmn⟩ := hm
        have hsz : sizeOf n ≤ k := by
          have h1 := List.sizeOf_lt_of_mem hn
          have hh := hr
          simp at hh
          omega
        have e : dumpNode (.module body)
            = "Module(body=[".toList ++ (dumpList body ++ "])".toList) := by
          simp [dumpNode, List.append_assoc]
        rw [e]
        exact infix_piece _ _ ((ih n hsz m hmn).trans (dumpNode_infix_dumpList body n hn))

theorem dumpNode_infix_of_mem_walk {root m : PyNode} (h : m ∈ walk root) :
    dumpNode m <:+: dumpNode root :=
  dumpNode_infix_of_mem_walk_aux (sizeOf root) root (le_refl _) m h

theorem matchAliasWalk_eq (node : PyNode) (al : String × Option String) :
    matchAliasWalk node al = containsSub al.1.toList (dumpNode node) := by
  have hiff : (matchAliasWalk node al = true)
      ↔ (containsSub al.1.toList (dumpNode node) = true) := by
    constructor
    · intro hm
      rw [matchAliasWalk, List.any_eq_true] at hm
      obtain ⟨n, hn, hc⟩ := hm
      rw [containsSub_iff] at hc ⊢
      exact hc.trans (dumpNode_infix_of_mem_walk hn)
    · intro hc
      rw [matchAliasWalk, List.any_eq_true]
      exact ⟨node, mem_walk_self node, hc⟩
  cases hA : matchAliasWalk node al <;> cases hB : containsSub al.1.toList (dumpNode node) <;>
    simp_all

/-! Claim C4. -/

/-- C4, counterexample: for an aliased import (`import numpy as np`) the
resolver tests the alias's *stated* name (`alias.name`, here `numpy`) as a
substring of the subtree's dump — never the bound name `np`.  A definition
that references the import only through its bound alias `np` therefore gets
an empty resolved prologue, although the claim requires the import to be
included exactly when its bound name occurs as an identifier (it does here). -/
theorem aliased_import_not_resolved :
    specBoundName ("numpy", some "np") = "np"
    ∧ specHasIdentOccurrence "np"
        (.funcDef "g" [] [.ret (.call (.attrAccess (.name "np") "array") [])] []) = true
    ∧ usedImports (.funcDef "g" [] [.ret (.call (.attrAccess (.name "np") "array") [])] [])
        [⟨[("numpy", some "np")], "import numpy as np"⟩] = [] :=
  ⟨by decide, by decide, by decide⟩

/-- C4 (amended): the Usage Resolver includes a catalogued import's original
text in the prologue if and only if some alias's *stated* path name
(`alias.name`, not the bound name) occurs as a substring of the structural
dump of the definition's subtree; each matching import appears exactly once,
in catalog order.  Because string-constant values appear verbatim in the
dump, a name occurring only inside a string literal does trigger inclusion,
and aliased imports referenced only through their alias are missed. -/
theorem usage_resolver_matches_dump_substring (node : PyNode) (imports : List ImportStmtRec) :
    usedImports node imports
      = (imports.filter (fun imp =>
          imp.names.any (fun al => containsSub al.1.toList (dumpNode node)))).map
        (fun imp => imp.text) := by
  have hfun : (fun al => containsSub al.1.toList (dumpNode node)) = matchAliasWalk node :=
    funext (fun al => (matchAliasWalk_eq node al).symm)
  rw [hfun]
  induction imports with
  | nil => simp [usedImports]
  | cons imp rest ih =>
    simp only [usedImports, List.filter_cons]
    by_cases h : imp.names.any (matchAliasWalk node) = true
    · simp [h, ih]
    · simp [h, ih]

/-! Claim C8. -/

theorem mem_attrStep_iff (s : List String) (n : PyNode) (a : String) :
    a ∈ attrStep s n ↔ a ∈ s ∨ extractSelfAttr n = some a := by
  cases he : extractSelfAttr n with
  | none => simp [attrStep, he]
  | some b =>
    simp only [attrStep, he]
    by_cases hc : s.contains b = true
    · have hb : b ∈ s := by simpa using hc
      simp only [if_pos hc]
      constructor
      · exact fun h => Or.inl h
      · rintro (h | h)
        · exact h
        · obtain rfl : b = a := by injection h
          exact hb
    · rw [if_neg hc]
      simp [List.mem_append, eq_comm]

theorem mem_foldl_attrStep (l : List PyNode) :
    ∀ (acc : List String) (a : String),
      a ∈ l.foldl attrStep acc ↔ a ∈ acc ∨ ∃ n ∈ l, extractSelfAttr n = some a := by
  induction l with
  | nil => simp
  | cons n l ih =>
    intro acc a
    simp only [List.foldl_cons]
    rw [ih, mem_attrStep_iff]
    simp only [List.mem_cons]
    constructor
    · rintro ((h | h) | ⟨x, hx, hex⟩)
      · exact Or.inl h
      · exact Or.inr ⟨n, Or.inl rfl, h⟩
      · exact Or.inr ⟨x, Or.inr hx, hex⟩
    · rintro (h | ⟨x, hx | hx, hex⟩)
      · exact Or.inl (Or.inl h)
      · subst hx
        exact Or.inl (Or.inr hex)
      · exact Or.inr ⟨x, hx, hex⟩

theorem nodup_foldl_attrStep (l : List PyNode) :
    ∀ acc : List String, acc.Nodup → (l.foldl attrStep acc).Nodup := by
  induction l with
  | nil => intro acc h; simpa
  | cons n l ih =>
    intro acc h
    simp only [List.foldl_cons]
    apply ih
    cases he : extractSelfAttr n with
    | none => simpa [attrStep, he]
    | some b =>
      simp only [attrStep, he]
      by_cases hc : acc.contains b = true
      · rw [if_pos hc]
        exact h
      · rw [if_neg hc]
        have hb : b ∉ acc := by
          intro hbm
          exact hc (by simpa using hbm)
        rw [List.nodup_append]
        refine ⟨h, List.nodup_singleton b, ?_⟩
        intro x hx hx'
        simp at hx'
        subst hx'
        exact hb hx

theorem isSelfAttrOccurrence_iff (a : String) (n : PyNode) :
    isSelfAttrOccurrence a n = true ↔ extractSelfAttr n = some a := by
  cases he : extractSelfAttr n <;> simp [isSelfAttrOccurrence, he]

/-- C8, counterexample: attribute discovery recognizes only the literal
receiver name `self`, not the method's actual first parameter.  For a method
whose first parameter is `this` and whose body accesses `this.x`, the code
collects nothing, while the claim (receiver = the method's literal
first-parameter identifier) requires `{x}`. -/
theorem attr_discovery_ignores_first_param :
    handleMethodAttributes
        (.funcDef "mth" ["this"] [.exprStmt (.attrAccess (.name "this") "x")] []) = []
    ∧ specInstanceAttrs
        (.funcDef "mth" ["this"] [.exprStmt (.attrAccess (.name "this") "x")] []) = ["x"] :=
  ⟨by decide, by decide⟩

/-- C8 (amended): the discovered attribute set of a method is exactly the set
of names `n` such that an access `self.n` (on the *literal* identifier
`self`, regardless of the method's first parameter name) occurs in the
method's subtree; duplicate accesses contribute one element (the collected
list is duplicate-free). -/
theorem attr_discovery_matches_literal_self (m : PyNode) (a : String) :
    (handleMethodAttributes m).Nodup
    ∧ (a ∈ handleMethodAttributes m ↔ (walk m).any (isSelfAttrOccurrence a) = true) := by
  constructor
  · exact nodup_foldl_attrStep (walk m) [] List.nodup_nil
  · show a ∈ (walk m).foldl attrStep [] ↔ _
    rw [mem_foldl_attrStep, List.any_eq_true]
    simp only [List.not_mem_nil, false_or]
    constructor
    · rintro ⟨n, hn, he⟩
      exact ⟨n, hn, (isSelfAttrOccurrence_iff a n).mpr he⟩
    · rintro ⟨n, hn, he⟩
      exact ⟨n, hn, (isSelfAttrOccurrence_iff a n).mp he⟩

/-! Claim C1. -/

/-- C1: evaluation of the code at a failing input.  Because
`visit_FunctionDef` and `visit_ClassDef` call `generic_visit(node)`, the
traversal descends into class and function bodies, so a class's method is
also collected as a function.  For a file whose only top-level definition is
`class C` with one method `m` (N = 0 top-level functions, M = 1 top-level
classes), the run writes two files — `m.py` and `C.py` — not the claimed
N+M = 1. -/
theorem collector_descends_into_class_bodies :
    splitOutputFiles (.module [.classDef "C" [.funcDef "m" ["self"] [.passStmt] []]])
      = ["m.py", "C.py"]
    ∧ specTopLevelDefCount (.module [.classDef "C" [.funcDef "m" ["self"] [.passStmt] []]])
      = 1 :=
  ⟨by decide, by decide⟩

/-! Claim C6. -/

/-- C6: evaluation of the code at a failing input.  The visitor's descent
into function bodies (via `generic_visit`) also reaches import statements
nested inside them, so for `def f(): import os` the catalog contains the
nested `import os` although the file has zero module-top-level imports. -/
theorem catalog_includes_nested_import :
    ((collectModule (.module [.funcDef "f" [] [.importStmt [("os", none)]] []])).imports.map
        importedNames) = [[("os", none)]]
    ∧ specTopLevelImportCount (.module [.funcDef "f" [] [.importStmt [("os", none)]] []])
      = 0 :=
  ⟨by decide, by decide⟩

/-! Claim C5. -/

/-- C5: evaluation of the code at a failing input.  `_create_function_file`
initializes `func_code` with the resolved import block and then writes
`self._get_imports_for_node(func) + func_code`, so the emitted file contains
the resolved import block twice — `import os\nimport os\n...` — and differs
from the claimed composition (imports once, then decorators, then span);
`_create_class_file` is textually identical. -/
theorem function_file_duplicates_import_prologue :
    createFunctionFileContent [⟨[("os", none)], "import os"⟩]
        ⟨.funcDef "f" [] [.ret (.call (.attrAccess (.name "os") "getcwd") [])] [], [],
          "def f():\n    return os.getcwd()"⟩
      = "import os\nimport os\ndef f():\n    return os.getcwd()"
    ∧ createFunctionFileContent [⟨[("os", none)], "import os"⟩]
        ⟨.funcDef "f" [] [.ret (.call (.attrAccess (.name "os") "getcwd") [])] [], [],
          "def f():\n    return os.getcwd()"⟩
      ≠ specFunctionFileContent [⟨[("os", none)], "import os"⟩]
          ⟨.funcDef "f" [] [.ret (.call (.attrAccess (.name "os") "getcwd") [])] [], [],
            "def f():\n    return os.getcwd()"⟩ :=
  ⟨by decide, by decide⟩

/-! Claim C7. -/

/-- C7: when no ancestor of the source path (the path itself included)
carries a version-control marker, `__main__` prints a message and exits with
status 1 before any filesystem effect: the effect trace is empty — no file or
directory is created, deleted, or modified. -/
theorem main_refuses_outside_git_repo (markers : List Bool) (outputDirExists : Bool)
    (parsed : Option PyNode) (h : isGitRepo markers = false) :
    mainRun markers outputDirExists parsed = (1, []) := by
  simp [mainRun, h]

/-- Witness for `main_refuses_outside_git_repo` at a concrete marker-free
ancestor chain. -/
theorem main_refuses_outside_git_repo_witness :
    isGitRepo [false, false] = false
    ∧ mainRun [false, false] true none = (1, []) :=
  ⟨by decide, main_refuses_outside_git_repo [false, false] true none (by decide)⟩

/-! Claim C10. -/

/-- C10: `split_functions` removes an existing output directory and recreates
it before the script is read and parsed; when parsing fails the run exits
with status 1, the trace contains no write to the original script (the source
file is unmodified), and for a pre-existing output directory the trace is
exactly remove, recreate, read — the old contents are already gone. -/
theorem split_clears_output_dir_before_parse (outputDirExists : Bool) :
    (splitEffects outputDirExists none).1 = 1
    ∧ Effect.overwriteScript ∉ (splitEffects outputDirExists none).2
    ∧ splitEffects true none
        = (1, [Effect.removeOutputDir, Effect.makeOutputDir, Effect.readScript]) := by
  cases outputDirExists <;> exact ⟨by decide, by decide, by decide⟩

/-! Claim C9. -/

theorem foldl_append_extension (l : List ImportStmtRec) :
    ∀ init : String, ∃ s : String,
      l.foldl (fun acc i => acc ++ (i.text ++ "\n")) init = init ++ s := by
  induction l with
  | nil =>
    intro init
    exact ⟨"", (String.append_empty init).symm⟩
  | cons i l ih =>
    intro init
    obtain ⟨s, hs⟩ := ih (init ++ (i.text ++ "\n"))
    exact ⟨(i.text ++ "\n") ++ s, by rw [List.foldl_cons, hs, String.append_assoc]⟩

theorem foldl_append_mem_split (l : List ImportStmtRec) (imp : ImportStmtRec) :
    ∀ init : String, imp ∈ l →
      ∃ a b : String, l.foldl (fun acc i => acc ++ (i.text ++ "\n")) init
        = a ++ (imp.text ++ "\n") ++ b := by
  induction l with
  | nil =>
    intro init h
    simp at h
  | cons i l ih =>
    intro init h
    rcases List.mem_cons.mp h with rfl | hmem
    · obtain ⟨s, hs⟩ := foldl_append_extension l (init ++ (imp.text ++ "\n"))
      exact ⟨init, s, by rw [List.foldl_cons, hs]⟩
    · obtain ⟨a, b, hab⟩ := ih (init ++ (i.text ++ "\n")) hmem
      exact ⟨a, b, by rw [List.foldl_cons, hab]⟩

/-- C9: every emitted method file is prefixed with the original text of
every import statement in the catalog — for any catalogued import and method
(in particular one that never references the import), the import's original
text followed by a newline occurs in the emitted content.  No usage-based
subset is computed on the method path (`_get_imports_code` folds over the
whole catalog unconditionally). -/
theorem method_file_prefixed_with_full_catalog (imports : List ImportStmtRec)
    (imp : ImportStmtRec) (h : imp ∈ imports) (method : PyNode) (span : String) :
    ∃ a b : String,
      createMethodFileContent method span imports = a ++ (imp.text ++ "\n") ++ b := by
  have key : ∀ rest : String, ∃ a b : String,
      getImportsCode imports ++ rest = a ++ (imp.text ++ "\n") ++ b := by
    intro rest
    obtain ⟨a, b, hab⟩ := foldl_append_mem_split imports imp "" h
    refine ⟨a, b ++ rest, ?_⟩
    rw [show getImportsCode imports = a ++ (imp.text ++ "\n") ++ b from hab]
    rw [String.append_assoc]
  exact key _

/-- Witness for `method_file_prefixed_with_full_catalog`: a method that never
references `sys` still gets `import sys` in its emitted file. -/
theorem method_file_prefixed_with_full_catalog_witness :
    (⟨[("sys", none)], "import sys"⟩ : ImportStmtRec)
        ∈ [(⟨[("os", none)], "import os"⟩ : ImportStmtRec), ⟨[("sys", none)], "import sys"⟩]
    ∧ ∃ a b : String,
        createMethodFileContent (.funcDef "mth" ["self"] [.passStmt] [])
            "def mth(self):\n    pass"
            [⟨[("os", none)], "import os"⟩, ⟨[("sys", none)], "import sys"⟩]
          = a ++ ("import sys" ++ "\n") ++ b :=
  ⟨by decide,
    method_file_prefixed_with_full_catalog
      [⟨[("os", none)], "import os"⟩, ⟨[("sys", none)], "import sys"⟩]
      ⟨[("sys", none)], "import sys"⟩ (by decide)
      (.funcDef "mth" ["self"] [.passStmt] []) "def mth(self):\n    pass"⟩

end Splitter
